import Mathlib

set_option maxHeartbeats 1000000

/-!
A shallow embedding of the outbound message queue of the EPICS channel access
client (`src/src/ca/comQueSend.h`) together with the POSIX network interface
discovery routines (`src/modules/libcom/src/osi/os/osdNetIfConf.c`).

Machine `unsigned` byte counters are modelled as unbounded natural numbers and
a buffer's raw storage as the list of bytes written so far.  The buffer
capacity `comBuf::capacityBytes ()` is a compile time constant defined in a
file that is not part of the given sources, so every definition that needs it
takes the capacity as an explicit parameter `cap`.  `ca_float32_t` values are
represented by their 32 bit pattern; only their width matters to the queue.
-/

/-- Modelled from the spec: the class `comBuf` (its file `comBuf.h` is not part
of the given sources).  A fixed capacity byte buffer; `data` is the sequence of
bytes written so far, so the current write offset is `data.length`. -/
structure comBuf where
  data : List Nat
  deriving Repr, DecidableEq

/-- Modelled from the spec: `comBuf::push ( const T *, unsigned )` appends as
many whole `w`-byte elements as the remaining capacity allows and reports how
many elements were accepted; it never writes a partial element. -/
def comBuf.pushElems (cap w : Nat) (b : comBuf) (elems : List (List Nat)) :
    comBuf × Nat :=
  let acc := min elems.length ((cap - b.data.length) / w)
  (⟨b.data ++ (elems.take acc).flatten⟩, acc)

/-- Modelled from the spec: `comBuf::push ( const T & )` for a single scalar
whose encoding is `bytes`: it succeeds exactly when the whole scalar fits in
the remaining capacity, and never writes a partial scalar. -/
def comBuf.pushBytes (cap : Nat) (b : comBuf) (bytes : List Nat) :
    Option comBuf :=
  if b.data.length + bytes.length ≤ cap then some ⟨b.data ++ bytes⟩ else none

/-- State of `comQueSend` (`src/src/ca/comQueSend.h`, lines 67-72): the buffer
chain `bufs` (head = first to transmit), the `pFirstUncommited` cursor and the
pending byte counter.  The external collaborator references (memory manager and
wire adapter) carry no state that the given claims mention.  The cursor is
modelled from the spec as the index of the first buffer holding uncommitted
data together with the committed write offset inside that buffer. -/
structure comQueSend where
  bufs : List comBuf
  pFirstUncommited : Option (Nat × Nat)
  nBytesPending : Nat
  deriving Repr, DecidableEq

/-- The freshly constructed queue: empty chain, invalid cursor, zero pending
bytes. -/
def comQueSend.mk0 : comQueSend := ⟨[], none, 0⟩

/-- Sum of the written offsets of all buffers in a chain. -/
def chainBytes (bs : List comBuf) : Nat := (bs.map (fun b => b.data.length)).sum

/-- `comQueSend::occupiedBytes` (`comQueSend.h`, lines 178-181). -/
def comQueSend.occupiedBytes (q : comQueSend) : Nat := q.nBytesPending

/-- `comQueSend::flushBlockThreshold` (`comQueSend.h`, lines 183-186). -/
def comQueSend.flushBlockThreshold (cap : Nat) (q : comQueSend)
    (nBytesThisMsg : Nat) : Bool :=
  decide (q.nBytesPending + nBytesThisMsg > 16 * cap)

/-- `comQueSend::flushEarlyThreshold` (`comQueSend.h`, lines 188-191). -/
def comQueSend.flushEarlyThreshold (cap : Nat) (q : comQueSend)
    (nBytesThisMsg : Nat) : Bool :=
  decide (q.nBytesPending + nBytesThisMsg > 4 * cap)

/-- `comQueSend::pushComBuf` (`comQueSend.h`, lines 170-176): append the buffer
to the chain and, when the cursor is invalid, point it at the new buffer.  A
buffer linked while the cursor is invalid is entirely uncommitted, so its
committed offset is zero. -/
def comQueSend.pushComBuf (q : comQueSend) (cb : comBuf) : comQueSend :=
  { q with
    bufs := q.bufs ++ [cb]
    pFirstUncommited :=
      match q.pFirstUncommited with
      | some m => some m
      | none => some (q.bufs.length, 0) }

/-- The allocate-and-retry path of the scalar push template (`comQueSend.h`,
lines 121-123): a fresh buffer is allocated and the scalar pushed into it; the
source asserts that this push succeeds.  The assertion-failure branch (scalar
wider than a whole buffer) aborts the program and is modelled as leaving the
queue unchanged.  The pending byte increase is modelled from the spec. -/
def comQueSend.pushScalarNew (cap : Nat) (q : comQueSend) (bytes : List Nat) :
    comQueSend :=
  match comBuf.pushBytes cap ⟨[]⟩ bytes with
  | some b2 =>
      { q.pushComBuf b2 with nBytesPending := q.nBytesPending + bytes.length }
  | none => q

/-- The scalar push template `comQueSend::push ( const T & )` (`comQueSend.h`,
lines 114-124): try the tail buffer; if there is none or the scalar does not
fit, allocate a fresh buffer and retry there.  The pending byte increase is
modelled from the spec. -/
def comQueSend.pushScalar (cap : Nat) (q : comQueSend) (bytes : List Nat) :
    comQueSend :=
  match q.bufs.getLast? with
  | some b =>
      match b.pushBytes cap bytes with
      | some b2 =>
          { q with
            bufs := q.bufs.dropLast ++ [b2]
            nBytesPending := q.nBytesPending + bytes.length }
      | none => q.pushScalarNew cap bytes
  | none => q.pushScalarNew cap bytes

/-- The `while ( nElem > nCopied )` loop of the array push template
(`comQueSend.h`, lines 101-107): allocate a fresh buffer, push the remaining
elements into it, link it, repeat.  The loop is driven by fuel (one unit per
created buffer suffices when an element fits in a buffer); the case of an
element wider than a whole buffer never terminates in the source and is
modelled as leaving the queue unchanged. -/
def comQueSend.pushLoop (cap w : Nat) : Nat → comQueSend → List (List Nat) →
    comQueSend
  | _, q, [] => q
  | 0, q, _ :: _ => q
  | fuel + 1, q, e :: rest =>
      if cap / w = 0 then q
      else
        let pr := comBuf.pushElems cap w ⟨[]⟩ (e :: rest)
        let q2 := q.pushComBuf pr.1
        let q3 := { q2 with
          nBytesPending := q2.nBytesPending + ((e :: rest).take pr.2).flatten.length }
        comQueSend.pushLoop cap w fuel q3 ((e :: rest).drop pr.2)

/-- The array push template `comQueSend::push ( const T *, unsigned )`
(`comQueSend.h`, lines 90-108): first push into the tail buffer when one
exists, then loop allocating new buffers for the remainder.  The pending byte
increase is modelled from the spec. -/
def comQueSend.push (cap w : Nat) (q : comQueSend) (elems : List (List Nat)) :
    comQueSend :=
  match q.bufs.getLast? with
  | none => comQueSend.pushLoop cap w elems.length q elems
  | some b =>
      let pr := comBuf.pushElems cap w b elems
      let q2 := { q with
        bufs := q.bufs.dropLast ++ [pr.1]
        nBytesPending := q.nBytesPending + (elems.take pr.2).flatten.length }
      comQueSend.pushLoop cap w (elems.length - pr.2) q2 (elems.drop pr.2)

/-- Big endian (network order) encoding of the low `w` bytes of `v`; modelled
from the spec's "network byte order" requirement, the conversion itself living
in the missing `comBuf.h`. -/
def beBytes (w v : Nat) : List Nat :=
  (List.range w).map (fun i => v / 256 ^ (w - 1 - i) % 256)

/-- `comQueSend::pushUInt16` (`comQueSend.h`, lines 143-146). -/
def comQueSend.pushUInt16 (cap : Nat) (q : comQueSend) (value : Nat) :
    comQueSend :=
  q.pushScalar cap (beBytes 2 value)

/-- `comQueSend::pushUInt32` (`comQueSend.h`, lines 148-151). -/
def comQueSend.pushUInt32 (cap : Nat) (q : comQueSend) (value : Nat) :
    comQueSend :=
  q.pushScalar cap (beBytes 4 value)

/-- `comQueSend::pushFloat32` (`comQueSend.h`, lines 153-156); the float is
represented by its 32 bit pattern. -/
def comQueSend.pushFloat32 (cap : Nat) (q : comQueSend) (bits : Nat) :
    comQueSend :=
  q.pushScalar cap (beBytes 4 bits)

/-- `comQueSend::pushString` (`comQueSend.h`, lines 158-161): a byte-wise array
push of `nChar` characters. -/
def comQueSend.pushString (cap : Nat) (q : comQueSend) (pVal : List Nat) :
    comQueSend :=
  q.push cap 1 (pVal.map (fun b => [b]))

/-- Modelled from the spec: `comQueSend::clearUncommitted` (declared at
`comQueSend.h` line 84, defined in the missing `comQueSend.cpp`): drop every
byte written since the last `beginMsg` by truncating the chain back to the
committed boundary, free buffers that become fully empty, invalidate the
cursor, and decrement the pending counter by exactly the number of bytes
discarded. -/
def comQueSend.clearUncommitted (q : comQueSend) : comQueSend :=
  match q.pFirstUncommited with
  | none => q
  | some (i, off) =>
      let kept := q.bufs.take i
      let boundary := (q.bufs.getD i ⟨[]⟩).data.take off
      let newBufs := if boundary = [] then kept else kept ++ [⟨boundary⟩]
      { bufs := newBufs
        pFirstUncommited := none
        nBytesPending := q.nBytesPending - (chainBytes q.bufs - chainBytes newBufs) }

/-- `comQueSend::beginMsg` (`comQueSend.h`, lines 193-199): clear any still
uncommitted message, then mark the current chain tail as the new uncommitted
boundary. -/
def comQueSend.beginMsg (q : comQueSend) : comQueSend :=
  let q1 := if q.pFirstUncommited.isSome then q.clearUncommitted else q
  { q1 with
    pFirstUncommited :=
      match q1.bufs.getLast? with
      | none => none
      | some b => some (q1.bufs.length - 1, b.data.length) }

/-- Modelled from the spec: `comQueSend::commitMsg` (defined in the missing
`comQueSend.cpp`): only invalidates the uncommitted cursor; it moves no
bytes. -/
def comQueSend.commitMsg (q : comQueSend) : comQueSend :=
  { q with pFirstUncommited := none }

/-- Modelled from the spec: `comQueSend::clear` (defined in the missing
`comQueSend.cpp`): release every buffer, reset the pending count to zero and
invalidate the cursor. -/
def comQueSend.clear (_q : comQueSend) : comQueSend := comQueSend.mk0

/-- Modelled from the spec: `comQueSend::popNextComBufToSend` (defined in the
missing `comQueSend.cpp`; the header note at `comQueSend.h` lines 36-39 states
that it first clears any uncommitted bytes): discard uncommitted bytes, then
detach and return the head buffer, decrementing the pending counter by that
buffer's written size; return `none` when the chain is empty. -/
def comQueSend.popNextComBufToSend (q : comQueSend) :
    Option comBuf × comQueSend :=
  let q1 := q.clearUncommitted
  match q1.bufs with
  | [] => (none, q1)
  | b :: rest =>
      (some b,
       { bufs := rest
         pFirstUncommited := q1.pFirstUncommited
         nBytesPending := q1.nBytesPending - b.data.length })

/-- Split a byte list into consecutive chunks of `w` bytes (the last chunk may
be shorter); fuel-driven, `fuel ≥ length` suffices when `1 ≤ w`. -/
def chunkF (w : Nat) : Nat → List Nat → List (List Nat)
  | _, [] => []
  | 0, x :: xs => [x :: xs]
  | fuel + 1, x :: xs => (x :: xs).take w :: chunkF w fuel ((x :: xs).drop w)

/-- Group a list of elements into consecutive groups of `n` elements (the last
group may be smaller); fuel-driven, `fuel ≥ length` suffices when `1 ≤ n`. -/
def groupsF (n : Nat) : Nat → List (List Nat) → List (List (List Nat))
  | _, [] => []
  | 0, _ :: _ => []
  | fuel + 1, e :: rest => (e :: rest).take n :: groupsF n fuel ((e :: rest).drop n)

/-- The native value kinds covered by the dbr dispatch table (spec section
4.5). -/
inductive DbrKind where
  | dbrString
  | dbrShort
  | dbrFloat
  | dbrChar
  | dbrLong
  | dbrDouble
  deriving Repr, DecidableEq

/-- Modelled from the spec: the encoded width in bytes of one element of each
value kind (fixed-width payload encodings; a string element is the fixed
40 byte protocol string). -/
def dbrElemBytes : DbrKind → Nat
  | .dbrString => 40
  | .dbrShort => 2
  | .dbrFloat => 4
  | .dbrChar => 1
  | .dbrLong => 4
  | .dbrDouble => 8

/-- Modelled from the spec: the 39 entry dispatch table
`comQueSend::dbrCopyVector` (declared at `comQueSend.h` line 82, its contents
living in the missing `comQueSend.cpp`).  The plain value codes 0-6 (string,
short, float, enum, char, long, double) and the two 16 bit acknowledgement
codes are mapped; structured codes have null entries. -/
def dbrCopyVector : List (Option DbrKind) :=
  [some .dbrString, some .dbrShort, some .dbrFloat, some .dbrShort,
   some .dbrChar, some .dbrLong, some .dbrDouble] ++
  List.replicate 26 none ++
  [some .dbrShort, some .dbrShort] ++
  List.replicate 4 none

/-- `comQueSend::dbr_type_ok` (`comQueSend.h`, lines 132-141): the type code
must be inside the table and its entry must be non-null. -/
def comQueSend.dbr_type_ok (type : Nat) : Bool :=
  if type ≥ dbrCopyVector.length then false
  else if (dbrCopyVector.getD type none).isNone then false
  else true

/-- Modelled from the spec: the shared body of the `copy_dbr_xxx` member
routines (defined in the missing `comQueSend.cpp`): reinterpret the opaque
payload bytes as `nElem` elements of width `w` and push them with the chunking
array push. -/
def comQueSend.pushTyped (cap w : Nat) (q : comQueSend) (pValue : List Nat)
    (nElem : Nat) : comQueSend :=
  let bytes := pValue.take (w * nElem)
  q.push cap w (chunkF w bytes.length bytes)

/-- Modelled from the spec: `comQueSend::copy_dbr_string`; pushes the
`40 * nElem` payload bytes character-wise. -/
def comQueSend.copy_dbr_string (cap : Nat) (q : comQueSend) (pValue : List Nat)
    (nElem : Nat) : comQueSend :=
  q.push cap 1 ((pValue.take (40 * nElem)).map (fun b => [b]))

/-- Modelled from the spec: `comQueSend::copy_dbr_short`. -/
def comQueSend.copy_dbr_short (cap : Nat) (q : comQueSend) (pValue : List Nat)
    (nElem : Nat) : comQueSend :=
  q.pushTyped cap 2 pValue nElem

/-- Modelled from the spec: `comQueSend::copy_dbr_float`. -/
def comQueSend.copy_dbr_float (cap : Nat) (q : comQueSend) (pValue : List Nat)
    (nElem : Nat) : comQueSend :=
  q.pushTyped cap 4 pValue nElem

/-- Modelled from the spec: `comQueSend::copy_dbr_char`. -/
def comQueSend.copy_dbr_char (cap : Nat) (q : comQueSend) (pValue : List Nat)
    (nElem : Nat) : comQueSend :=
  q.pushTyped cap 1 pValue nElem

/-- Modelled from the spec: `comQueSend::copy_dbr_long`. -/
def comQueSend.copy_dbr_long (cap : Nat) (q : comQueSend) (pValue : List Nat)
    (nElem : Nat) : comQueSend :=
  q.pushTyped cap 4 pValue nElem

/-- Modelled from the spec: `comQueSend::copy_dbr_double`. -/
def comQueSend.copy_dbr_double (cap : Nat) (q : comQueSend) (pValue : List Nat)
    (nElem : Nat) : comQueSend :=
  q.pushTyped cap 8 pValue nElem

/-- Dispatch of a table entry to its copy routine (the member pointer call
`( this->*dbrCopyVector [type] ) ( pVal, nElem )`). -/
def comQueSend.copyDbrKind (cap : Nat) (k : DbrKind) (q : comQueSend)
    (pValue : List Nat) (nElem : Nat) : comQueSend :=
  match k with
  | .dbrString => q.copy_dbr_string cap pValue nElem
  | .dbrShort => q.copy_dbr_short cap pValue nElem
  | .dbrFloat => q.copy_dbr_float cap pValue nElem
  | .dbrChar => q.copy_dbr_char cap pValue nElem
  | .dbrLong => q.copy_dbr_long cap pValue nElem
  | .dbrDouble => q.copy_dbr_double cap pValue nElem

/-- `comQueSend::push_dbr_type` (`comQueSend.h`, lines 163-168): the unchecked
table dispatch.  A null entry in the source would call through a null member
pointer (undefined behaviour); it is modelled as leaving the queue unchanged
and proved unreachable under the documented `dbr_type_ok` precondition. -/
def comQueSend.push_dbr_type (cap : Nat) (q : comQueSend) (type : Nat)
    (pVal : List Nat) (nElem : Nat) : comQueSend :=
  match dbrCopyVector.getD type none with
  | some k => comQueSend.copyDbrKind cap k q pVal nElem
  | none => q

/-- The two error kinds thrown by the request composer (`cacChannel`
exceptions named at `comQueSend.h` lines 59 and 64). -/
inductive CaErr where
  | outOfBounds
  | badType
  deriving Repr, DecidableEq

/-- Modelled from the spec: `comQueSend::insertRequestHeader` (declared at
`comQueSend.h` lines 55-59, defined in the missing `comQueSend.cpp`).  The
compact 16 byte header is used when payload size and element count fit their
16 bit fields (the all-ones value is the reserved "extended follows"
sentinel); otherwise, when `v49Ok` allows it, the extended layout appends
32 bit size and count after a compact header carrying the sentinel; otherwise
the call fails with an out-of-bounds error before writing anything. -/
def comQueSend.insertRequestHeader (cap : Nat) (q : comQueSend)
    (request payloadSize dataType nElem cid requestDependent : Nat)
    (v49Ok : Bool) : Except CaErr comQueSend :=
  if payloadSize < 0xffff ∧ nElem < 0xffff then
    .ok ((((((q.pushUInt16 cap request).pushUInt16 cap
        payloadSize).pushUInt16 cap dataType).pushUInt16 cap
        nElem).pushUInt32 cap cid).pushUInt32 cap requestDependent)
  else if v49Ok then
    .ok ((((((((q.pushUInt16 cap request).pushUInt16 cap
        0xffff).pushUInt16 cap dataType).pushUInt16 cap
        0).pushUInt32 cap cid).pushUInt32 cap
        requestDependent).pushUInt32 cap payloadSize).pushUInt32 cap nElem)
  else .error .outOfBounds

/-- Encoded size in bytes of one element of a mapped type code (zero for an
unmapped code, which `insertRequestWithPayLoad` rejects first). -/
def dbrSizeOf (type : Nat) : Nat :=
  match dbrCopyVector.getD type none with
  | some k => dbrElemBytes k
  | none => 0

/-- Modelled from the spec: `comQueSend::insertRequestWithPayLoad` (declared at
`comQueSend.h` lines 60-64, defined in the missing `comQueSend.cpp`): validate
the data type, compute the exact encoded payload size and round it up to the
8 byte protocol alignment, push the header (its range check runs before any
payload bytes are written), dispatch the payload, then push the zero
padding. -/
def comQueSend.insertRequestWithPayLoad (cap : Nat) (q : comQueSend)
    (request dataType nElem cid requestDependent : Nat) (pPayload : List Nat)
    (v49Ok : Bool) : Except CaErr comQueSend :=
  if comQueSend.dbr_type_ok dataType = false then .error .badType
  else
    let size := dbrSizeOf dataType * nElem
    let payloadSize := 8 * ((size + 7) / 8)
    match q.insertRequestHeader cap request payloadSize dataType nElem cid
        requestDependent v49Ok with
    | .error e => .error e
    | .ok q1 =>
        let q2 := q1.push_dbr_type cap dataType pPayload nElem
        .ok (q2.pushString cap (List.replicate (payloadSize - size) 0))

/-- The queue state after `insertRequestWithPayLoad`: the thrown errors leave
the queue untouched. -/
def comQueSend.insertRequestWithPayLoadRun (cap : Nat) (q : comQueSend)
    (request dataType nElem cid requestDependent : Nat) (pPayload : List Nat)
    (v49Ok : Bool) : comQueSend :=
  match q.insertRequestWithPayLoad cap request dataType nElem cid
      requestDependent pPayload v49Ok with
  | .ok q2 => q2
  | .error _ => q

/-- The public mutating operations of the queue, for stating properties of
arbitrary call sequences. -/
inductive Op where
  | clear
  | beginMsg
  | commitMsg
  | pop
  | pushUInt16 (v : Nat)
  | pushUInt32 (v : Nat)
  | pushFloat32 (v : Nat)
  | pushString (s : List Nat)
  | pushDbr (type : Nat) (p : List Nat) (nElem : Nat)
  | insertHeader (request payloadSize dataType nElem cid rd : Nat) (v49 : Bool)
  | insertWithPayLoad (request dataType nElem cid rd : Nat) (p : List Nat)
      (v49 : Bool)

/-- One public call; a thrown error leaves the queue state unchanged. -/
def applyOp (cap : Nat) (q : comQueSend) : Op → comQueSend
  | .clear => q.clear
  | .beginMsg => q.beginMsg
  | .commitMsg => q.commitMsg
  | .pop => q.popNextComBufToSend.2
  | .pushUInt16 v => q.pushUInt16 cap v
  | .pushUInt32 v => q.pushUInt32 cap v
  | .pushFloat32 v => q.pushFloat32 cap v
  | .pushString s => q.pushString cap s
  | .pushDbr t p n => q.push_dbr_type cap t p n
  | .insertHeader r ps dt ne cid rd v49 =>
      match q.insertRequestHeader cap r ps dt ne cid rd v49 with
      | .ok q2 => q2
      | .error _ => q
  | .insertWithPayLoad r dt ne cid rd p v49 =>
      q.insertRequestWithPayLoadRun cap r dt ne cid rd p v49

/-- The queue state reached from a fresh queue by a sequence of public
calls. -/
def runOps (cap : Nat) (ops : List Op) : comQueSend :=
  ops.foldl (applyOp cap) comQueSend.mk0

/-- Repeatedly pop until the queue reports an empty chain, collecting the
returned buffers in order. -/
def drainF : Nat → comQueSend → List comBuf
  | 0, _ => []
  | fuel + 1, q =>
      match q.popNextComBufToSend with
      | (none, _) => []
      | (some b, q2) => b :: drainF fuel q2

/-- Cursor sanity as a boolean check: when the cursor is valid it names a
buffer of the chain and a committed offset not exceeding that buffer's written
offset. -/
def cursorOKb (q : comQueSend) : Bool :=
  match q.pFirstUncommited with
  | none => true
  | some (i, off) =>
      decide (i < q.bufs.length) &&
      decide (off ≤ (q.bufs.getD i ⟨[]⟩).data.length)

/-- Cursor sanity as a proposition. -/
def cursorOK (q : comQueSend) : Prop := cursorOKb q = true

instance (q : comQueSend) : Decidable (cursorOK q) :=
  inferInstanceAs (Decidable (_ = _))

/-- The state well-formedness maintained by every public operation: the
pending counter equals the chain's summed write offsets, the cursor is sane,
and no buffer in the chain is empty. -/
def comQueSend.wf (q : comQueSend) : Prop :=
  q.nBytesPending = chainBytes q.bufs ∧ cursorOK q ∧ ∀ b ∈ q.bufs, b.data ≠ []

instance (q : comQueSend) : Decidable q.wf :=
  inferInstanceAs (Decidable (_ ∧ _ ∧ _))

/-- Statement form of "a scalar is never split": the pushed bytes sit
contiguously inside a single buffer of the result, either appended to the old
tail or alone in one freshly allocated buffer. -/
def scalarOneBuf (q q2 : comQueSend) (bytes : List Nat) : Prop :=
  (∃ b : comBuf, q.bufs.getLast? = some b ∧
      q2.bufs = q.bufs.dropLast ++ [⟨b.data ++ bytes⟩]) ∨
  q2.bufs = q.bufs ++ [⟨bytes⟩]

/-- Address family constants used by `osdNetIfConf.c`. -/
def AF_UNSPEC : Nat := 0

/-- The internet address family constant. -/
def AF_INET : Nat := 2

/-- The IPv4 loopback address 127.0.0.1 in host order. -/
def INADDR_LOOPBACK : Nat := 0x7f000001

/-- The IPv4 wildcard address. -/
def INADDR_ANY : Nat := 0

/-- A socket address as far as the discovery routines inspect it: an address
family and the 32 bit IPv4 address. -/
structure osiSockAddr where
  family : Nat
  addr : Nat
  deriving Repr, DecidableEq

/-- The loopback fallback address built by `osiLocalAddrOnce`
(`osdNetIfConf.c`, lines 286-290). -/
def loopbackAddr : osiSockAddr := ⟨AF_INET, INADDR_LOOPBACK⟩

/-- What the kernel reports about one network interface, as far as
`osdNetIfConf.c` inspects it. -/
structure ifaceInfo where
  family : Nat
  flagsFetchOk : Bool
  up : Bool
  loopback : Bool
  broadcast : Bool
  pointToPoint : Bool
  addr : Nat
  broadFamily : Nat
  broadAddr : Nat
  dstFamily : Nat
  dstAddr : Nat
  deriving Repr, DecidableEq

/-- Outcome of the interface enumeration performed by `osiLocalAddrOnce`:
the `calloc` failure (`osdNetIfConf.c`, lines 214-218), the `SIOCGIFCONF`
failure (lines 222-231), or the returned interface list. -/
inductive IfScan where
  | allocFail
  | ioctlFail
  | found (ifs : List ifaceInfo)
  deriving Repr, DecidableEq

/-- The per-interface filter of `osiLocalAddrOnce` (`osdNetIfConf.c`, lines
250-274): an AF_INET interface whose flags fetch succeeds and which is up and
not loopback. -/
def usableLocalIf (i : ifaceInfo) : Bool :=
  i.family == AF_INET && i.flagsFetchOk && i.up && !i.loopback

/-- `osiLocalAddrOnce` (`osdNetIfConf.c`, lines 199-293): the address of the
first usable interface, falling back to the IPv4 loopback address when the
allocation or the ioctl fails or only loopback interfaces are found. -/
def osiLocalAddrOnce : IfScan → osiSockAddr
  | .allocFail => loopbackAddr
  | .ioctlFail => loopbackAddr
  | .found ifs =>
      match ifs.find? usableLocalIf with
      | some i => ⟨AF_INET, i.addr⟩
      | none => loopbackAddr

/-- The per-interface node construction of `osiSockDiscoverBroadcastAddresses`
(`osdNetIfConf.c`, lines 96-191): skip non-internet, unmatched, down and
loopback interfaces; use the broadcast address of broadcast-capable
interfaces when it is a non-wildcard AF_INET address, the destination address
of point-to-point interfaces, and skip everything else. -/
def discoverNode (matchAddr : osiSockAddr) (i : ifaceInfo) :
    Option osiSockAddr :=
  if i.family ≠ AF_INET then none
  else if matchAddr.family ≠ AF_UNSPEC ∧
      (matchAddr.family ≠ AF_INET ∨
        (matchAddr.addr ≠ INADDR_ANY ∧ i.addr ≠ matchAddr.addr)) then none
  else if ¬ i.up then none
  else if i.loopback then none
  else if i.broadcast then
    if i.broadFamily = AF_INET ∧ i.broadAddr ≠ INADDR_ANY then
      some ⟨i.broadFamily, i.broadAddr⟩
    else none
  else if i.pointToPoint then some ⟨i.dstFamily, i.dstAddr⟩
  else none

/-- `osiSockDiscoverBroadcastAddresses` (`osdNetIfConf.c`, lines 69-194): a
loopback match address short-circuits to a single loopback node (lines 74-87);
a failed `getifaddrs` logs and returns with the list unchanged (lines 89-94);
otherwise each reported interface contributes at most one node.  `scanimpl =
none` models the `getifaddrs` failure. -/
def osiSockDiscoverBroadcastAddresses (matchAddr : osiSockAddr)
    (scanResult : Option (List ifaceInfo)) : List osiSockAddr :=
  if matchAddr.family = AF_INET ∧ matchAddr.addr = INADDR_LOOPBACK then
    [loopbackAddr]
  else
    match scanResult with
    | none => []
    | some ifs => ifs.filterMap (discoverNode matchAddr)

/-! ### Basic helper lemmas -/

theorem chainBytes_nil : chainBytes [] = 0 := rfl

theorem chainBytes_append (a b : List comBuf) :
    chainBytes (a ++ b) = chainBytes a + chainBytes b := by
  simp [chainBytes]

theorem chainBytes_cons (b : comBuf) (l : List comBuf) :
    chainBytes (b :: l) = b.data.length + chainBytes l := by
  simp [chainBytes]

theorem beBytes_length (w v : Nat) : (beBytes w v).length = w := by
  simp [beBytes]

theorem beBytes_ne_nil (w v : Nat) (hw : 0 < w) : beBytes w v ≠ [] := by
  intro h
  have := beBytes_length w v
  rw [h] at this
  simp at this
  omega

theorem take_min_length {α : Type} (l : List α) (n : Nat) :
    l.take (min l.length n) = l.take n := by
  rcases Nat.le_total l.length n with h | h
  · rw [Nat.min_eq_left h, List.take_length, List.take_of_length_le h]
  · rw [Nat.min_eq_right h]

theorem drop_min_length {α : Type} (l : List α) (n : Nat) :
    l.drop (min l.length n) = l.drop n := by
  rcases Nat.le_total l.length n with h | h
  · rw [Nat.min_eq_left h, List.drop_length, List.drop_eq_nil_of_le h]
  · rw [Nat.min_eq_right h]

theorem flatten_map_singleton (s : List Nat) :
    (s.map (fun b => [b])).flatten = s := by
  induction s with
  | nil => rfl
  | cons x xs ih => simp [ih]

theorem eq_dropLast_concat {α : Type} (l : List α) (b : α)
    (h : l.getLast? = some b) : l = l.dropLast ++ [b] := by
  induction l using List.reverseRecOn with
  | nil => simp at h
  | append_singleton xs x _ =>
      rw [List.getLast?_concat] at h
      obtain rfl : x = b := by injection h
      simp

/-! ### Cursor lemmas -/

theorem cursorOK_of_none (q : comQueSend) (h : q.pFirstUncommited = none) :
    cursorOK q := by
  simp [cursorOK, cursorOKb, h]

theorem cursorOK_some_iff (q : comQueSend) (i off : Nat)
    (h : q.pFirstUncommited = some (i, off)) :
    cursorOK q ↔
      i < q.bufs.length ∧ off ≤ (q.bufs.getD i ⟨[]⟩).data.length := by
  simp [cursorOK, cursorOKb, h]

theorem cursorOK_snoc (q : comQueSend) (cb : comBuf) (p2 : Nat)
    (h : cursorOK q) :
    cursorOK ⟨q.bufs ++ [cb], q.pFirstUncommited, p2⟩ := by
  rcases hm : q.pFirstUncommited with - | ⟨i, off⟩
  · exact cursorOK_of_none _ rfl
  · rw [cursorOK_some_iff _ i off hm] at h
    rw [cursorOK_some_iff _ i off rfl]
    refine ⟨by simp; omega, ?_⟩
    rw [List.getD_append _ _ _ _ h.1]
    exact h.2

theorem cursorOK_extendLast (q : comQueSend) (b b2 : comBuf) (p2 : Nat)
    (hlast : q.bufs.getLast? = some b) (hlen : b.data.length ≤ b2.data.length)
    (h : cursorOK q) :
    cursorOK ⟨q.bufs.dropLast ++ [b2], q.pFirstUncommited, p2⟩ := by
  have hsplit := eq_dropLast_concat q.bufs b hlast
  obtain ⟨init, hinit⟩ : ∃ i0, q.bufs = i0 ++ [b] := ⟨q.bufs.dropLast, hsplit⟩
  have hdl : q.bufs.dropLast = init := by rw [hinit]; simp
  rcases hm : q.pFirstUncommited with - | ⟨i, off⟩
  · exact cursorOK_of_none _ rfl
  · rw [cursorOK_some_iff _ i off hm] at h
    rw [cursorOK_some_iff _ i off rfl]
    rw [hinit] at h
    simp only [hdl]
    refine ⟨?_, ?_⟩
    · have h1 := h.1
      simp at h1 ⊢
      omega
    · rcases Nat.lt_or_ge i init.length with hi | hi
      · rw [List.getD_append _ _ _ _ hi]
        have h2 := h.2
        rw [List.getD_append _ _ _ _ hi] at h2
        exact h2
      · have hieq : i = init.length := by
          have h1 := h.1
          simp at h1
          omega
        subst hieq
        rw [List.getD_append_right _ _ _ _ (Nat.le_refl _)]
        have h2 := h.2
        rw [List.getD_append_right _ _ _ _ (Nat.le_refl _)] at h2
        simp only [Nat.sub_self, List.getD_cons_zero] at h2 ⊢
        omega

theorem pushComBuf_cursorOK (q : comQueSend) (cb : comBuf)
    (h : cursorOK q) : cursorOK (q.pushComBuf cb) := by
  rcases hm : q.pFirstUncommited with - | m
  · rw [cursorOK_some_iff _ q.bufs.length 0 (by simp [comQueSend.pushComBuf, hm])]
    constructor
    · simp [comQueSend.pushComBuf]
    · simp
  · have : q.pushComBuf cb = ⟨q.bufs ++ [cb], q.pFirstUncommited, q.nBytesPending⟩ := by
      simp [comQueSend.pushComBuf, hm]
    rw [this]
    exact cursorOK_snoc q cb _ h

/-! ### Scalar push lemmas -/

theorem pushComBuf_bufs (q : comQueSend) (cb : comBuf) :
    (q.pushComBuf cb).bufs = q.bufs ++ [cb] := rfl

theorem pushComBuf_pending (q : comQueSend) (cb : comBuf) :
    (q.pushComBuf cb).nBytesPending = q.nBytesPending := rfl

theorem pushScalarNew_wf (cap : Nat) (q : comQueSend) (bytes : List Nat)
    (h : q.wf) (hb : bytes ≠ []) : (q.pushScalarNew cap bytes).wf := by
  obtain ⟨hp, hc, hn⟩ := h
  unfold comQueSend.pushScalarNew comBuf.pushBytes
  split
  · rename_i b2 heq
    split at heq
    · obtain rfl : comBuf.mk ((⟨[]⟩ : comBuf).data ++ bytes) = b2 := by
        injection heq
      refine ⟨?_, ?_, ?_⟩
      · simp [pushComBuf_bufs, chainBytes_append, chainBytes, hp]
      · exact pushComBuf_cursorOK q _ hc
      · intro b hbmem
        rw [pushComBuf_bufs] at hbmem
        rcases List.mem_append.mp hbmem with hbm | hbm
        · exact hn b hbm
        · simp at hbm
          subst hbm
          simpa using hb
    · cases heq
  · exact ⟨hp, hc, hn⟩

theorem pushScalarNew_pending (cap : Nat) (q : comQueSend) (bytes : List Nat)
    (hlen : bytes.length ≤ cap) :
    (q.pushScalarNew cap bytes).nBytesPending = q.nBytesPending + bytes.length := by
  unfold comQueSend.pushScalarNew comBuf.pushBytes
  simp [hlen]

theorem pushScalarNew_bufs (cap : Nat) (q : comQueSend) (bytes : List Nat)
    (hlen : bytes.length ≤ cap) :
    (q.pushScalarNew cap bytes).bufs = q.bufs ++ [⟨bytes⟩] := by
  unfold comQueSend.pushScalarNew comBuf.pushBytes
  simp [hlen, pushComBuf_bufs]

theorem pushScalar_wf (cap : Nat) (q : comQueSend) (bytes : List Nat)
    (h : q.wf) (hb : bytes ≠ []) : (q.pushScalar cap bytes).wf := by
  unfold comQueSend.pushScalar
  split
  · rename_i b hlast
    rcases hpb : b.pushBytes cap bytes with - | b2
    · simp only [hpb]
      exact pushScalarNew_wf cap q bytes h hb
    · simp only [hpb]
      obtain ⟨hp, hc, hn⟩ := h
      unfold comBuf.pushBytes at hpb
      split at hpb
      · obtain rfl : comBuf.mk (b.data ++ bytes) = b2 := by injection hpb
        have hsplit := eq_dropLast_concat q.bufs b hlast
        refine ⟨?_, ?_, ?_⟩
        · show q.nBytesPending + bytes.length =
            chainBytes (q.bufs.dropLast ++ [⟨b.data ++ bytes⟩])
          rw [chainBytes_append, chainBytes_cons, chainBytes_nil]
          have hq : q.nBytesPending = chainBytes q.bufs.dropLast + b.data.length := by
            rw [hp]
            conv_lhs => rw [hsplit]
            rw [chainBytes_append, chainBytes_cons, chainBytes_nil]
            omega
          rw [hq]
          simp
          omega
        · exact cursorOK_extendLast q b _ _ hlast (by simp) hc
        · intro x hx
          rcases List.mem_append.mp hx with hxm | hxm
          · exact hn x (List.IsPrefix.mem hxm ⟨[b], hsplit.symm⟩)
          · simp at hxm
            subst hxm
            simp
            intro h1 h2
            exact hb h2
      · cases hpb
  · rename_i hlast
    exact pushScalarNew_wf cap q bytes h hb

theorem pushScalar_pending (cap : Nat) (q : comQueSend) (bytes : List Nat)
    (hlen : bytes.length ≤ cap) :
    (q.pushScalar cap bytes).nBytesPending = q.nBytesPending + bytes.length := by
  unfold comQueSend.pushScalar
  split
  · rename_i b hlast
    rcases hpb : b.pushBytes cap bytes with - | b2
    · simp only [hpb]
      exact pushScalarNew_pending cap q bytes hlen
    · simp only [hpb]
  · exact pushScalarNew_pending cap q bytes hlen

theorem pushScalar_oneBuf (cap : Nat) (q : comQueSend) (bytes : List Nat)
    (hlen : bytes.length ≤ cap) :
    scalarOneBuf q (q.pushScalar cap bytes) bytes := by
  unfold comQueSend.pushScalar
  split
  · rename_i b hlast
    rcases hpb : b.pushBytes cap bytes with - | b2
    · simp only [hpb]
      right
      exact pushScalarNew_bufs cap q bytes hlen
    · simp only [hpb]
      left
      refine ⟨b, hlast, ?_⟩
      unfold comBuf.pushBytes at hpb
      split at hpb
      · obtain rfl : comBuf.mk (b.data ++ bytes) = b2 := by injection hpb
        rfl
      · cases hpb
  · right
    exact pushScalarNew_bufs cap q bytes hlen

/-! ### Array push loop lemmas -/

theorem cursorOK_setPending (q : comQueSend) (p : Nat) (h : cursorOK q) :
    cursorOK ⟨q.bufs, q.pFirstUncommited, p⟩ := by
  rcases hm : q.pFirstUncommited with - | ⟨i, off⟩
  · exact cursorOK_of_none _ rfl
  · rw [cursorOK_some_iff _ i off hm] at h
    rw [cursorOK_some_iff _ i off rfl]
    exact h

theorem flatten_take_drop {α : Type} (l : List (List α)) (n : Nat) :
    (l.take n).flatten ++ (l.drop n).flatten = l.flatten := by
  rw [← List.flatten_append, List.take_append_drop]

theorem flatten_length_take_drop {α : Type} (l : List (List α)) (n : Nat) :
    (l.take n).flatten.length + (l.drop n).flatten.length = l.flatten.length := by
  rw [← List.length_append, flatten_take_drop]

theorem pushLoop_wf (cap w : Nat) :
    ∀ fuel (q : comQueSend) (elems : List (List Nat)), q.wf →
      (∀ e ∈ elems, e ≠ []) → (comQueSend.pushLoop cap w fuel q elems).wf := by
  intro fuel
  induction fuel with
  | zero =>
      intro q elems hq _
      cases elems with
      | nil => exact hq
      | cons e rest => exact hq
  | succ fuel ih =>
      intro q elems hq he
      cases elems with
      | nil => exact hq
      | cons e rest =>
          rw [comQueSend.pushLoop]
          split
          · exact hq
          · rename_i hcw
            apply ih
            · obtain ⟨hp, hc, hn⟩ := hq
              set acc := min (e :: rest).length ((cap - 0) / w) with hacc
              have hacc1 : 1 ≤ acc := by
                rw [hacc]
                refine Nat.le_min.mpr ⟨by simp, ?_⟩
                rw [Nat.sub_zero]
                exact Nat.pos_of_ne_zero hcw
              refine ⟨?_, ?_, ?_⟩
              · show q.nBytesPending + ((e :: rest).take acc).flatten.length =
                  chainBytes (q.bufs ++ [⟨[] ++ ((e :: rest).take acc).flatten⟩])
                rw [chainBytes_append, chainBytes_cons, chainBytes_nil, hp]
                simp
              · exact cursorOK_setPending _ _ (pushComBuf_cursorOK q _ hc)
              · intro x hx
                rcases List.mem_append.mp hx with hxm | hxm
                · exact hn x hxm
                · simp only [List.mem_singleton] at hxm
                  subst hxm
                  obtain ⟨k, hk⟩ : ∃ k, acc = k + 1 := ⟨acc - 1, by omega⟩
                  show [] ++ ((e :: rest).take acc).flatten ≠ []
                  rw [hk, List.take_succ_cons, List.nil_append, List.flatten_cons]
                  intro hcon
                  have hco := List.append_eq_nil.mp hcon
                  exact he e (by simp) hco.1
            · intro x hx
              exact he x (List.mem_of_mem_drop hx)

theorem pushLoop_pending (cap w : Nat) (hw : 1 ≤ cap / w) :
    ∀ fuel (elems : List (List Nat)) (q : comQueSend), elems.length ≤ fuel →
      (comQueSend.pushLoop cap w fuel q elems).nBytesPending =
        q.nBytesPending + elems.flatten.length := by
  intro fuel
  induction fuel with
  | zero =>
      intro elems q h
      cases elems with
      | nil => simp [comQueSend.pushLoop]
      | cons e rest => simp at h
  | succ fuel ih =>
      intro elems q h
      cases elems with
      | nil => simp [comQueSend.pushLoop]
      | cons e rest =>
          rw [comQueSend.pushLoop]
          rw [if_neg (by omega)]
          dsimp only [comBuf.pushElems]
          simp only [List.length_nil, Nat.sub_zero]
          set acc := min (e :: rest).length (cap / w) with hacc
          have hL : (e :: rest).length = rest.length + 1 := by simp
          have hacc1 : 1 ≤ acc := by
            rw [hacc]
            exact Nat.le_min.mpr ⟨by omega, hw⟩
          have hdlen : ((e :: rest).drop acc).length = (e :: rest).length - acc := by
            simp
          rw [ih ((e :: rest).drop acc) _ (by rw [hdlen]; omega)]
          show q.nBytesPending + ((e :: rest).take acc).flatten.length +
              ((e :: rest).drop acc).flatten.length =
            q.nBytesPending + (e :: rest).flatten.length
          have := flatten_length_take_drop (e :: rest) acc
          omega

theorem pushLoop_bufs (cap w : Nat) (hw : 1 ≤ cap / w) :
    ∀ fuel (elems : List (List Nat)) (q : comQueSend), elems.length ≤ fuel →
      (comQueSend.pushLoop cap w fuel q elems).bufs =
        q.bufs ++ (groupsF (cap / w) fuel elems).map
          (fun g => (⟨g.flatten⟩ : comBuf)) := by
  intro fuel
  induction fuel with
  | zero =>
      intro elems q h
      cases elems with
      | nil => simp [comQueSend.pushLoop, groupsF]
      | cons e rest => simp at h
  | succ fuel ih =>
      intro elems q h
      cases elems with
      | nil => simp [comQueSend.pushLoop, groupsF]
      | cons e rest =>
          rw [comQueSend.pushLoop]
          rw [if_neg (by omega)]
          dsimp only [comBuf.pushElems]
          simp only [List.length_nil, Nat.sub_zero]
          set acc := min (e :: rest).length (cap / w) with hacc
          have hL : (e :: rest).length = rest.length + 1 := by simp
          have hacc1 : 1 ≤ acc := by
            rw [hacc]
            exact Nat.le_min.mpr ⟨by omega, hw⟩
          have hdlen : ((e :: rest).drop acc).length = (e :: rest).length - acc := by
            simp
          rw [ih ((e :: rest).drop acc) _ (by rw [hdlen]; omega)]
          have htk : (e :: rest).take acc = (e :: rest).take (cap / w) := by
            rw [hacc]
            exact take_min_length (e :: rest) (cap / w)
          have hdr : (e :: rest).drop acc = (e :: rest).drop (cap / w) := by
            rw [hacc]
            exact drop_min_length (e :: rest) (cap / w)
          rw [groupsF]
          show q.bufs ++ [(⟨[] ++ ((e :: rest).take acc).flatten⟩ : comBuf)] ++
              (groupsF (cap / w) fuel ((e :: rest).drop acc)).map
                (fun g => (⟨g.flatten⟩ : comBuf)) =
            q.bufs ++ ((⟨((e :: rest).take (cap / w)).flatten⟩ : comBuf) ::
              (groupsF (cap / w) fuel ((e :: rest).drop (cap / w))).map
                (fun g => (⟨g.flatten⟩ : comBuf)))
          rw [htk, hdr]
          simp

theorem groupsF_flatten (n : Nat) (hn : 1 ≤ n) :
    ∀ fuel (elems : List (List Nat)), elems.length ≤ fuel →
      (groupsF n fuel elems).flatten = elems := by
  intro fuel
  induction fuel with
  | zero =>
      intro elems h
      cases elems with
      | nil => simp [groupsF]
      | cons e rest => simp at h
  | succ fuel ih =>
      intro elems h
      cases elems with
      | nil => simp [groupsF]
      | cons e rest =>
          rw [groupsF]
          have hL : (e :: rest).length = rest.length + 1 := by simp
          have hdlen : ((e :: rest).drop n).length = (e :: rest).length - n := by
            simp
          rw [List.flatten_cons, ih _ (by rw [hdlen]; omega)]
          exact List.take_append_drop n (e :: rest)

theorem groupsF_nil_eq (n fuel : Nat) : groupsF n fuel [] = [] := by
  cases fuel <;> rfl

theorem groupsF_length (n : Nat) (hn : 1 ≤ n) :
    ∀ fuel (elems : List (List Nat)), elems.length ≤ fuel →
      (groupsF n fuel elems).length = (elems.length + n - 1) / n := by
  intro fuel
  induction fuel with
  | zero =>
      intro elems h
      cases elems with
      | nil =>
          simp [groupsF]
          exact (Nat.div_eq_of_lt (by omega)).symm
      | cons e rest => simp at h
  | succ fuel ih =>
      intro elems h
      cases elems with
      | nil =>
          simp [groupsF]
          exact (Nat.div_eq_of_lt (by omega)).symm
      | cons e rest =>
          rw [groupsF]
          have hL : (e :: rest).length = rest.length + 1 := by simp
          rcases Nat.le_total (e :: rest).length n with hle | hle
          · have hd : (e :: rest).drop n = [] := List.drop_eq_nil_of_le hle
            rw [List.length_cons, hd, groupsF_nil_eq]
            simp only [List.length_nil]
            have hnum : (e :: rest).length + n - 1 = ((e :: rest).length - 1) + n := by
              omega
            rw [hnum, Nat.add_div_right _ (by omega), Nat.div_eq_of_lt (by omega)]
          · have hdlen : ((e :: rest).drop n).length = (e :: rest).length - n := by
              simp
            rw [List.length_cons, ih _ (by rw [hdlen]; omega)]
            rw [hdlen]
            have h2 : (e :: rest).length - n + n - 1 = (e :: rest).length - 1 := by
              omega
            rw [h2]
            have hnum : (e :: rest).length + n - 1 = ((e :: rest).length - 1) + n := by
              omega
            rw [hnum, Nat.add_div_right _ (by omega)]

/-! ### Top level push lemmas -/

theorem getLast_mem_of_split {α : Type} (l : List α) (b : α)
    (h : l.getLast? = some b) : b ∈ l := by
  rw [eq_dropLast_concat l b h]
  simp

theorem push_wf (cap w : Nat) (q : comQueSend) (elems : List (List Nat))
    (h : q.wf) (he : ∀ e ∈ elems, e ≠ []) : (q.push cap w elems).wf := by
  unfold comQueSend.push
  split
  · exact pushLoop_wf cap w _ q elems h he
  · rename_i b hlast
    dsimp only [comBuf.pushElems]
    apply pushLoop_wf
    · obtain ⟨hp, hc, hn⟩ := h
      have hsplit := eq_dropLast_concat q.bufs b hlast
      set acc := min elems.length ((cap - b.data.length) / w) with hacc
      refine ⟨?_, ?_, ?_⟩
      · show q.nBytesPending + (elems.take acc).flatten.length =
          chainBytes (q.bufs.dropLast ++ [⟨b.data ++ (elems.take acc).flatten⟩])
        rw [chainBytes_append, chainBytes_cons, chainBytes_nil]
        have hq : q.nBytesPending = chainBytes q.bufs.dropLast + b.data.length := by
          rw [hp]
          conv_lhs => rw [hsplit]
          rw [chainBytes_append, chainBytes_cons, chainBytes_nil]
          omega
        rw [hq]
        simp
        omega
      · exact cursorOK_setPending _ _
          (cursorOK_extendLast q b ⟨b.data ++ (elems.take acc).flatten⟩
            q.nBytesPending hlast (by simp) hc)
      · intro x hx
        rcases List.mem_append.mp hx with hxm | hxm
        · exact hn x (List.IsPrefix.mem hxm ⟨[b], hsplit.symm⟩)
        · simp only [List.mem_singleton] at hxm
          subst hxm
          show b.data ++ (elems.take acc).flatten ≠ []
          intro hcon
          exact hn b (getLast_mem_of_split q.bufs b hlast)
            (List.append_eq_nil.mp hcon).1
    · intro x hx
      exact he x (List.mem_of_mem_drop hx)

theorem push_pending (cap w : Nat) (hw : 0 < w) (hwc : w ≤ cap)
    (q : comQueSend) (elems : List (List Nat)) :
    (q.push cap w elems).nBytesPending =
      q.nBytesPending + elems.flatten.length := by
  have hdiv : 1 ≤ cap / w := (Nat.one_le_div_iff hw).mpr hwc
  unfold comQueSend.push
  split
  · exact pushLoop_pending cap w hdiv _ elems q (Nat.le_refl _)
  · rename_i b hlast
    dsimp only [comBuf.pushElems]
    set acc := min elems.length ((cap - b.data.length) / w) with hacc
    have haccle : acc ≤ elems.length := by
      rw [hacc]
      exact Nat.min_le_left _ _
    have hdlen : (elems.drop acc).length = elems.length - acc := by
      rw [List.length_drop]
    rw [pushLoop_pending cap w hdiv _ (elems.drop acc) _ (by rw [hdlen])]
    show q.nBytesPending + (elems.take acc).flatten.length +
        (elems.drop acc).flatten.length =
      q.nBytesPending + elems.flatten.length
    have := flatten_length_take_drop elems acc
    omega

theorem push_bufs_empty (cap w : Nat) (hw : 1 ≤ cap / w)
    (elems : List (List Nat)) (q : comQueSend) (hq : q.bufs = []) :
    (q.push cap w elems).bufs =
      (groupsF (cap / w) elems.length elems).map
        (fun g => (⟨g.flatten⟩ : comBuf)) := by
  unfold comQueSend.push
  have hlast : q.bufs.getLast? = none := by rw [hq]; rfl
  rw [hlast]
  rw [pushLoop_bufs cap w hw elems.length elems q (Nat.le_refl _), hq]
  rfl

theorem push_bufs_tail (cap w : Nat) (hw : 1 ≤ cap / w)
    (elems : List (List Nat)) (q : comQueSend) (b : comBuf)
    (hlast : q.bufs.getLast? = some b) :
    (q.push cap w elems).bufs =
      q.bufs.dropLast ++
        (⟨b.data ++
          (elems.take (min elems.length ((cap - b.data.length) / w))).flatten⟩ ::
        (groupsF (cap / w)
            (elems.length - min elems.length ((cap - b.data.length) / w))
            (elems.drop (min elems.length ((cap - b.data.length) / w)))).map
          (fun g => (⟨g.flatten⟩ : comBuf))) := by
  unfold comQueSend.push
  rw [hlast]
  dsimp only [comBuf.pushElems]
  set acc := min elems.length ((cap - b.data.length) / w) with hacc
  have hdlen : (elems.drop acc).length = elems.length - acc := by
    rw [List.length_drop]
  rw [pushLoop_bufs cap w hw _ (elems.drop acc) _ (by rw [hdlen])]
  show q.bufs.dropLast ++ [(⟨b.data ++ (elems.take acc).flatten⟩ : comBuf)] ++
      (groupsF (cap / w) (elems.length - acc) (elems.drop acc)).map
        (fun g => (⟨g.flatten⟩ : comBuf)) =
    q.bufs.dropLast ++ ((⟨b.data ++ (elems.take acc).flatten⟩ : comBuf) ::
      (groupsF (cap / w) (elems.length - acc) (elems.drop acc)).map
        (fun g => (⟨g.flatten⟩ : comBuf)))
  simp

/-! ### Framing lemmas: clearUncommitted, beginMsg, commitMsg, clear, pop -/

theorem clearUncommitted_noop (q : comQueSend)
    (h : q.pFirstUncommited = none) : q.clearUncommitted = q := by
  unfold comQueSend.clearUncommitted
  rw [h]

theorem clearUncommitted_cursor (q : comQueSend) :
    q.clearUncommitted.pFirstUncommited = none := by
  unfold comQueSend.clearUncommitted
  rcases hm : q.pFirstUncommited with - | ⟨i, off⟩
  · exact hm
  · simp

theorem chainBytes_take_le (bs : List comBuf) (i : Nat) :
    chainBytes (bs.take i) + (bs.getD i ⟨[]⟩).data.length ≤ chainBytes bs ∨
      bs.length ≤ i := by
  rcases Nat.lt_or_ge i bs.length with hi | hi
  · left
    have hsplit : bs = bs.take i ++ bs.drop i := (List.take_append_drop i bs).symm
    have hdrop : bs.drop i = bs.getD i ⟨[]⟩ :: bs.drop (i + 1) := by
      rw [List.getD_eq_getElem?_getD, List.getElem?_eq_getElem hi]
      rw [List.drop_eq_getElem_cons hi]
      simp
    conv_rhs => rw [hsplit, hdrop]
    rw [chainBytes_append, chainBytes_cons]
    omega
  · right
    exact hi

theorem clearUncommitted_wf (q : comQueSend) (h : q.wf) :
    q.clearUncommitted.wf := by
  obtain ⟨hp, hc, hn⟩ := h
  unfold comQueSend.clearUncommitted
  rcases hm : q.pFirstUncommited with - | ⟨i, off⟩
  · exact ⟨hp, hc, hn⟩
  · rw [cursorOK_some_iff _ i off hm] at hc
    have hboundlen : ((q.bufs.getD i ⟨[]⟩).data.take off).length ≤
        (q.bufs.getD i ⟨[]⟩).data.length := by
      simp
    have hchain : chainBytes (q.bufs.take i) +
        (q.bufs.getD i ⟨[]⟩).data.length ≤ chainBytes q.bufs := by
      rcases chainBytes_take_le q.bufs i with hle | hge
      · exact hle
      · omega
    refine ⟨?_, ?_, ?_⟩
    · show q.nBytesPending -
          (chainBytes q.bufs -
            chainBytes (if (q.bufs.getD i ⟨[]⟩).data.take off = []
              then q.bufs.take i
              else q.bufs.take i ++ [⟨(q.bufs.getD i ⟨[]⟩).data.take off⟩])) =
        chainBytes (if (q.bufs.getD i ⟨[]⟩).data.take off = []
          then q.bufs.take i
          else q.bufs.take i ++ [⟨(q.bufs.getD i ⟨[]⟩).data.take off⟩])
      split
      · rw [hp]
        omega
      · rw [chainBytes_append, chainBytes_cons, chainBytes_nil, hp]
        dsimp only
        omega
    · exact cursorOK_of_none _ rfl
    · intro x hx
      simp only at hx
      split at hx
      · exact hn x ((List.take_sublist i q.bufs).subset hx)
      · rename_i hne
        rcases List.mem_append.mp hx with hxm | hxm
        · exact hn x ((List.take_sublist i q.bufs).subset hxm)
        · simp only [List.mem_singleton] at hxm
          subst hxm
          exact hne

theorem clearUncommitted_pending (q : comQueSend) (h : q.wf) :
    q.clearUncommitted.nBytesPending = chainBytes q.clearUncommitted.bufs :=
  (clearUncommitted_wf q h).1

theorem beginMsg_wf (q : comQueSend) (h : q.wf) : q.beginMsg.wf := by
  unfold comQueSend.beginMsg
  have h1 : (if q.pFirstUncommited.isSome then q.clearUncommitted else q).wf := by
    split
    · exact clearUncommitted_wf q h
    · exact h
  set q1 := if q.pFirstUncommited.isSome then q.clearUncommitted else q with hq1
  obtain ⟨hp, hc, hn⟩ := h1
  rcases hlast : q1.bufs.getLast? with - | b
  · simp only [hlast]
    exact ⟨hp, cursorOK_of_none _ rfl, hn⟩
  · simp only [hlast]
    refine ⟨hp, ?_, hn⟩
    rw [cursorOK_some_iff _ (q1.bufs.length - 1) b.data.length rfl]
    obtain ⟨init, hinit⟩ : ∃ i0, q1.bufs = i0 ++ [b] :=
      ⟨q1.bufs.dropLast, eq_dropLast_concat q1.bufs b hlast⟩
    have hlq : q1.bufs.length = init.length + 1 := by rw [hinit]; simp
    have hidx : q1.bufs.length - 1 = init.length := by omega
    constructor
    · show q1.bufs.length - 1 < q1.bufs.length
      omega
    · show b.data.length ≤ (q1.bufs.getD (q1.bufs.length - 1) ⟨[]⟩).data.length
      have hgd : q1.bufs.getD (q1.bufs.length - 1) ⟨[]⟩ = b := by
        rw [hidx, hinit]
        rw [List.getD_append_right _ _ _ _ (Nat.le_refl _)]
        simp
      rw [hgd]

theorem commitMsg_wf (q : comQueSend) (h : q.wf) : q.commitMsg.wf := by
  obtain ⟨hp, _, hn⟩ := h
  exact ⟨hp, cursorOK_of_none _ rfl, hn⟩

theorem clear_wf (q : comQueSend) : q.clear.wf := by
  refine ⟨rfl, cursorOK_of_none _ rfl, ?_⟩
  intro b hb
  simp [comQueSend.clear, comQueSend.mk0] at hb

theorem mk0_wf : comQueSend.mk0.wf := clear_wf comQueSend.mk0

theorem pop_wf (q : comQueSend) (h : q.wf) :
    q.popNextComBufToSend.2.wf := by
  unfold comQueSend.popNextComBufToSend
  have h1 := clearUncommitted_wf q h
  obtain ⟨hp, hc, hn⟩ := h1
  rcases hb : q.clearUncommitted.bufs with - | ⟨b, rest⟩
  · simp only [hb]
    exact ⟨hp, hc, hn⟩
  · simp only [hb]
    refine ⟨?_, ?_, ?_⟩
    · show q.clearUncommitted.nBytesPending - b.data.length = chainBytes rest
      rw [hp, hb, chainBytes_cons]
      omega
    · have := clearUncommitted_cursor q
      exact cursorOK_of_none _ this
    · intro x hx
      exact hn x (by rw [hb]; exact List.mem_cons_of_mem b hx)

/-! ### Typed push corollaries -/

theorem pushUInt16_wf (cap : Nat) (q : comQueSend) (v : Nat) (h : q.wf) :
    (q.pushUInt16 cap v).wf :=
  pushScalar_wf cap q _ h (beBytes_ne_nil 2 v (by omega))

theorem pushUInt32_wf (cap : Nat) (q : comQueSend) (v : Nat) (h : q.wf) :
    (q.pushUInt32 cap v).wf :=
  pushScalar_wf cap q _ h (beBytes_ne_nil 4 v (by omega))

theorem pushFloat32_wf (cap : Nat) (q : comQueSend) (v : Nat) (h : q.wf) :
    (q.pushFloat32 cap v).wf :=
  pushScalar_wf cap q _ h (beBytes_ne_nil 4 v (by omega))

theorem pushString_wf (cap : Nat) (q : comQueSend) (s : List Nat) (h : q.wf) :
    (q.pushString cap s).wf := by
  apply push_wf cap 1 q _ h
  intro e he
  rcases List.mem_map.mp he with ⟨x, -, hx⟩
  rw [← hx]
  simp

theorem pushUInt16_pending (cap : Nat) (q : comQueSend) (v : Nat)
    (hcap : 2 ≤ cap) :
    (q.pushUInt16 cap v).nBytesPending = q.nBytesPending + 2 := by
  have := pushScalar_pending cap q (beBytes 2 v) (by rw [beBytes_length]; omega)
  rw [beBytes_length] at this
  exact this

theorem pushUInt32_pending (cap : Nat) (q : comQueSend) (v : Nat)
    (hcap : 4 ≤ cap) :
    (q.pushUInt32 cap v).nBytesPending = q.nBytesPending + 4 := by
  have := pushScalar_pending cap q (beBytes 4 v) (by rw [beBytes_length]; omega)
  rw [beBytes_length] at this
  exact this

theorem pushFloat32_pending (cap : Nat) (q : comQueSend) (v : Nat)
    (hcap : 4 ≤ cap) :
    (q.pushFloat32 cap v).nBytesPending = q.nBytesPending + 4 := by
  have := pushScalar_pending cap q (beBytes 4 v) (by rw [beBytes_length]; omega)
  rw [beBytes_length] at this
  exact this

theorem pushString_pending (cap : Nat) (q : comQueSend) (s : List Nat)
    (hcap : 1 ≤ cap) :
    (q.pushString cap s).nBytesPending = q.nBytesPending + s.length := by
  unfold comQueSend.pushString
  rw [push_pending cap 1 (by omega) hcap q _]
  rw [flatten_map_singleton]

/-! ### Dispatch table and request composition lemmas -/

theorem chunkF_mem_ne_nil (w : Nat) (hw : 1 ≤ w) :
    ∀ fuel (l : List Nat) (c : List Nat), c ∈ chunkF w fuel l → c ≠ [] := by
  intro fuel
  induction fuel with
  | zero =>
      intro l c hc
      cases l with
      | nil => simp [chunkF] at hc
      | cons x xs =>
          simp only [chunkF, List.mem_singleton] at hc
          subst hc
          simp
  | succ fuel ih =>
      intro l c hc
      cases l with
      | nil => simp [chunkF] at hc
      | cons x xs =>
          simp only [chunkF] at hc
          rcases List.mem_cons.mp hc with hc1 | hc2
          · subst hc1
            obtain ⟨k, hk⟩ : ∃ k, w = k + 1 := ⟨w - 1, by omega⟩
            rw [hk, List.take_succ_cons]
            simp
          · exact ih _ c hc2

theorem pushTyped_wf (cap w : Nat) (hw : 1 ≤ w) (q : comQueSend)
    (p : List Nat) (n : Nat) (h : q.wf) : (q.pushTyped cap w p n).wf := by
  unfold comQueSend.pushTyped
  apply push_wf cap w q _ h
  intro e he
  exact chunkF_mem_ne_nil w hw _ _ e he

theorem copyDbrKind_wf (cap : Nat) (k : DbrKind) (q : comQueSend)
    (p : List Nat) (n : Nat) (h : q.wf) : (comQueSend.copyDbrKind cap k q p n).wf := by
  cases k with
  | dbrString => exact pushString_wf cap q _ h
  | dbrShort => exact pushTyped_wf cap 2 (by omega) q p n h
  | dbrFloat => exact pushTyped_wf cap 4 (by omega) q p n h
  | dbrChar => exact pushTyped_wf cap 1 (by omega) q p n h
  | dbrLong => exact pushTyped_wf cap 4 (by omega) q p n h
  | dbrDouble => exact pushTyped_wf cap 8 (by omega) q p n h

theorem push_dbr_type_wf (cap : Nat) (q : comQueSend) (t : Nat) (p : List Nat)
    (n : Nat) (h : q.wf) : (q.push_dbr_type cap t p n).wf := by
  unfold comQueSend.push_dbr_type
  rcases hk : dbrCopyVector.getD t none with - | k
  · exact h
  · exact copyDbrKind_wf cap k q p n h

theorem insertRequestHeader_wf (cap : Nat) (q : comQueSend)
    (r ps dt ne cid rd : Nat) (v49 : Bool) (q2 : comQueSend) (h : q.wf)
    (hok : q.insertRequestHeader cap r ps dt ne cid rd v49 = .ok q2) : q2.wf := by
  unfold comQueSend.insertRequestHeader at hok
  split at hok
  · obtain rfl : _ = q2 := by injection hok
    exact pushUInt32_wf _ _ _ (pushUInt32_wf _ _ _ (pushUInt16_wf _ _ _
      (pushUInt16_wf _ _ _ (pushUInt16_wf _ _ _ (pushUInt16_wf _ _ _ h)))))
  · split at hok
    · obtain rfl : _ = q2 := by injection hok
      exact pushUInt32_wf _ _ _ (pushUInt32_wf _ _ _ (pushUInt32_wf _ _ _
        (pushUInt32_wf _ _ _ (pushUInt16_wf _ _ _ (pushUInt16_wf _ _ _
          (pushUInt16_wf _ _ _ (pushUInt16_wf _ _ _ h)))))))
    · cases hok

theorem insertRequestWithPayLoadRun_wf (cap : Nat) (q : comQueSend)
    (r dt ne cid rd : Nat) (p : List Nat) (v49 : Bool) (h : q.wf) :
    (q.insertRequestWithPayLoadRun cap r dt ne cid rd p v49).wf := by
  unfold comQueSend.insertRequestWithPayLoadRun
  rcases hres : q.insertRequestWithPayLoad cap r dt ne cid rd p v49 with e | q2
  · exact h
  · unfold comQueSend.insertRequestWithPayLoad at hres
    split at hres
    · cases hres
    · rename_i hdt
      dsimp only at hres
      rcases hhd : q.insertRequestHeader cap r
          (8 * ((dbrSizeOf dt * ne + 7) / 8)) dt ne cid rd v49 with e1 | q1
      · rw [hhd] at hres
        cases hres
      · rw [hhd] at hres
        obtain rfl : _ = q2 := by injection hres
        apply pushString_wf
        apply push_dbr_type_wf
        exact insertRequestHeader_wf cap q _ _ _ _ _ _ _ q1 h hhd

theorem applyOp_wf (cap : Nat) (q : comQueSend) (op : Op) (h : q.wf) :
    (applyOp cap q op).wf := by
  cases op with
  | clear => exact clear_wf q
  | beginMsg => exact beginMsg_wf q h
  | commitMsg => exact commitMsg_wf q h
  | pop => exact pop_wf q h
  | pushUInt16 v => exact pushUInt16_wf cap q v h
  | pushUInt32 v => exact pushUInt32_wf cap q v h
  | pushFloat32 v => exact pushFloat32_wf cap q v h
  | pushString s => exact pushString_wf cap q s h
  | pushDbr t p n => exact push_dbr_type_wf cap q t p n h
  | insertHeader r ps dt ne cid rd v49 =>
      show (match q.insertRequestHeader cap r ps dt ne cid rd v49 with
        | .ok q2 => q2 | .error _ => q).wf
      rcases hres : q.insertRequestHeader cap r ps dt ne cid rd v49 with e | q2
      · exact h
      · exact insertRequestHeader_wf cap q r ps dt ne cid rd v49 q2 h hres
  | insertWithPayLoad r dt ne cid rd p v49 =>
      exact insertRequestWithPayLoadRun_wf cap q r dt ne cid rd p v49 h

theorem runOps_wf (cap : Nat) (ops : List Op) : (runOps cap ops).wf := by
  unfold runOps
  have hgen : ∀ (l : List Op) (q : comQueSend), q.wf →
      (l.foldl (applyOp cap) q).wf := by
    intro l
    induction l with
    | nil => intro q hq; exact hq
    | cons o rest ih =>
        intro q hq
        exact ih _ (applyOp_wf cap q o hq)
  exact hgen ops comQueSend.mk0 mk0_wf

/-! ### beginMsg characterization and idempotence -/

theorem eq_nil_of_getLast?_none {α : Type} (l : List α)
    (h : l.getLast? = none) : l = [] := by
  induction l using List.reverseRecOn with
  | nil => rfl
  | append_singleton xs x _ => rw [List.getLast?_concat] at h; cases h

theorem comQueSend_eta (q : comQueSend) :
    (⟨q.bufs, q.pFirstUncommited, q.nBytesPending⟩ : comQueSend) = q := rfl

theorem beginMsg_eq (q : comQueSend) :
    q.beginMsg =
      ⟨q.clearUncommitted.bufs,
       (match q.clearUncommitted.bufs.getLast? with
        | none => none
        | some b => some (q.clearUncommitted.bufs.length - 1, b.data.length)),
       q.clearUncommitted.nBytesPending⟩ := by
  unfold comQueSend.beginMsg
  rcases hm : q.pFirstUncommited with - | m
  · have hnoop := clearUncommitted_noop q hm
    rw [if_neg (by simp), hnoop]
  · rw [if_pos (show (some m).isSome = true from rfl)]

theorem clearUncommitted_of_tail_mark (q : comQueSend) (b : comBuf)
    (hlast : q.bufs.getLast? = some b) (hbne : b.data ≠ [])
    (hm : q.pFirstUncommited = some (q.bufs.length - 1, b.data.length)) :
    q.clearUncommitted = ⟨q.bufs, none, q.nBytesPending⟩ := by
  obtain ⟨init, hinit⟩ : ∃ i0, q.bufs = i0 ++ [b] :=
    ⟨q.bufs.dropLast, eq_dropLast_concat q.bufs b hlast⟩
  have hlq : q.bufs.length = init.length + 1 := by rw [hinit]; simp
  have hidx : q.bufs.length - 1 = init.length := by omega
  have hgd : q.bufs.getD (q.bufs.length - 1) ⟨[]⟩ = b := by
    rw [hidx, hinit]
    rw [List.getD_append_right _ _ _ _ (Nat.le_refl _)]
    simp
  have htake : q.bufs.take (q.bufs.length - 1) = init := by
    rw [hidx, hinit]
    exact List.take_left init [b]
  unfold comQueSend.clearUncommitted
  rw [hm]
  simp only [hgd, List.take_length, htake]
  rw [if_neg hbne]
  have hbufs : init ++ [(⟨b.data⟩ : comBuf)] = q.bufs := by
    rw [hinit]
  rw [hbufs]
  simp

theorem beginMsg_idem (q : comQueSend) (h : q.wf) :
    q.beginMsg.beginMsg = q.beginMsg := by
  have hC : q.clearUncommitted.wf := clearUncommitted_wf q h
  rcases hlast : q.clearUncommitted.bufs.getLast? with - | b
  · have hnil : q.clearUncommitted.bufs = [] :=
      eq_nil_of_getLast?_none _ hlast
    have hbm : q.beginMsg =
        ⟨[], none, q.clearUncommitted.nBytesPending⟩ := by
      rw [beginMsg_eq q, hnil]
      rfl
    rw [hbm, beginMsg_eq, clearUncommitted_noop _ rfl]
    rfl
  · have hbne : b.data ≠ [] :=
      hC.2.2 b (getLast_mem_of_split _ b hlast)
    have hbm : q.beginMsg =
        ⟨q.clearUncommitted.bufs,
         some (q.clearUncommitted.bufs.length - 1, b.data.length),
         q.clearUncommitted.nBytesPending⟩ := by
      rw [beginMsg_eq q, hlast]
    have hBclear : (⟨q.clearUncommitted.bufs,
        some (q.clearUncommitted.bufs.length - 1, b.data.length),
        q.clearUncommitted.nBytesPending⟩ : comQueSend).clearUncommitted =
        ⟨q.clearUncommitted.bufs, none, q.clearUncommitted.nBytesPending⟩ :=
      clearUncommitted_of_tail_mark _ b hlast hbne rfl
    have hbm2 : (⟨q.clearUncommitted.bufs,
        some (q.clearUncommitted.bufs.length - 1, b.data.length),
        q.clearUncommitted.nBytesPending⟩ : comQueSend).beginMsg =
        ⟨q.clearUncommitted.bufs,
         some (q.clearUncommitted.bufs.length - 1, b.data.length),
         q.clearUncommitted.nBytesPending⟩ := by
      rw [beginMsg_eq, hBclear]
      show (⟨q.clearUncommitted.bufs,
        (match q.clearUncommitted.bufs.getLast? with
         | none => none
         | some b2 => some (q.clearUncommitted.bufs.length - 1, b2.data.length)),
        q.clearUncommitted.nBytesPending⟩ : comQueSend) = _
      rw [hlast]
    rw [hbm, hbm2]

/-! ### Drain lemmas -/

theorem drainF_eq (fuel : Nat) :
    ∀ q : comQueSend, q.wf → q.clearUncommitted.bufs.length ≤ fuel →
      drainF fuel q = q.clearUncommitted.bufs := by
  induction fuel with
  | zero =>
      intro q h hlen
      have hnil : q.clearUncommitted.bufs = [] := by
        cases hb : q.clearUncommitted.bufs with
        | nil => rfl
        | cons b rest => rw [hb] at hlen; simp at hlen
      rw [hnil]
      rfl
  | succ fuel ih =>
      intro q h hlen
      rw [drainF]
      rcases hb : q.clearUncommitted.bufs with - | ⟨b, rest⟩
      · have hpop : q.popNextComBufToSend = (none, q.clearUncommitted) := by
          unfold comQueSend.popNextComBufToSend
          dsimp only
          rw [hb]
        rw [hpop]
      · set q2 : comQueSend :=
          ⟨rest, q.clearUncommitted.pFirstUncommited,
            q.clearUncommitted.nBytesPending - b.data.length⟩ with hq2def
        have hpop : q.popNextComBufToSend = (some b, q2) := by
          unfold comQueSend.popNextComBufToSend
          dsimp only
          rw [hb]
        have hq2wf : q2.wf := by
          have := pop_wf q h
          rw [hpop] at this
          exact this
        have hcur := clearUncommitted_cursor q
        have hq2clear : q2.clearUncommitted = q2 :=
          clearUncommitted_noop _ hcur
        have hrest : rest.length ≤ fuel := by
          have hql : q.clearUncommitted.bufs.length = rest.length + 1 := by
            rw [hb]
            simp
          omega
        rw [hpop]
        show b :: drainF fuel q2 = b :: rest
        rw [ih _ hq2wf (by rw [hq2clear]; exact hrest), hq2clear]

/-! ### Claim theorems -/

/-- C9: `flushEarlyThreshold(n)` is true exactly when `pending + n` exceeds
4 buffer capacities, `flushBlockThreshold(n)` exactly when it exceeds 16
buffer capacities; both are pure predicates of the state (they are plain
functions of the queue in this embedding), and at the exact boundary each
returns false. -/
theorem C9_flush_thresholds (cap : Nat) (q : comQueSend) (n : Nat) :
    (comQueSend.flushEarlyThreshold cap q n = true ↔
      q.nBytesPending + n > 4 * cap) ∧
    (comQueSend.flushBlockThreshold cap q n = true ↔
      q.nBytesPending + n > 16 * cap) ∧
    (q.nBytesPending + n = 4 * cap →
      comQueSend.flushEarlyThreshold cap q n = false) ∧
    (q.nBytesPending + n = 16 * cap →
      comQueSend.flushBlockThreshold cap q n = false) := by
  refine ⟨by simp [comQueSend.flushEarlyThreshold],
    by simp [comQueSend.flushBlockThreshold], ?_, ?_⟩
  · intro h
    simp [comQueSend.flushEarlyThreshold]
    omega
  · intro h
    simp [comQueSend.flushBlockThreshold]
    omega

/-- Witness for C9 at capacity 10 with 40 pending bytes and a 0 byte message:
exactly the early boundary, so both threshold predicates are false. -/
theorem C9_flush_thresholds_witness :
    ((40 : Nat) + 0 = 4 * 10) ∧
    comQueSend.flushEarlyThreshold 10 ⟨[], none, 40⟩ 0 = false ∧
    comQueSend.flushBlockThreshold 10 ⟨[], none, 40⟩ 0 = false := by
  exact ⟨by decide, (C9_flush_thresholds 10 ⟨[], none, 40⟩ 0).2.2.1 (by decide),
    by decide⟩

/-- C10: whenever the mandatory flush predicate `flushBlockThreshold` fires,
the advisory `flushEarlyThreshold` fires as well, because the 16 capacity
limit dominates the 4 capacity limit. -/
theorem C10_block_implies_early (cap : Nat) (q : comQueSend) (n : Nat)
    (h : comQueSend.flushBlockThreshold cap q n = true) :
    comQueSend.flushEarlyThreshold cap q n = true := by
  simp [comQueSend.flushBlockThreshold] at h
  simp [comQueSend.flushEarlyThreshold]
  omega

/-- Witness for C10: with capacity 1 and a 17 byte message both predicates
fire. -/
theorem C10_block_implies_early_witness :
    comQueSend.flushBlockThreshold 1 ⟨[], none, 0⟩ 17 = true ∧
    comQueSend.flushEarlyThreshold 1 ⟨[], none, 0⟩ 17 = true :=
  ⟨by decide, C10_block_implies_early 1 ⟨[], none, 0⟩ 17 (by decide)⟩

/-- C6: `dbr_type_ok` returns true exactly for a code below the 39 entry
table length with a non-null entry, and under that precondition the unchecked
dispatch `push_dbr_type` stays inside the table and invokes the (non-null)
copy routine stored there. -/
theorem C6_dbr_type_ok_guards_dispatch (type : Nat) :
    (comQueSend.dbr_type_ok type = true ↔
      type < 39 ∧ (dbrCopyVector.getD type none).isSome = true) ∧
    (comQueSend.dbr_type_ok type = true →
      type < dbrCopyVector.length ∧
      ∃ k : DbrKind, dbrCopyVector.getD type none = some k ∧
        ∀ (cap : Nat) (q : comQueSend) (p : List Nat) (n : Nat),
          q.push_dbr_type cap type p n = comQueSend.copyDbrKind cap k q p n) := by
  have hlen : dbrCopyVector.length = 39 := by decide
  have key : comQueSend.dbr_type_ok type = true ↔
      type < 39 ∧ (dbrCopyVector.getD type none).isSome = true := by
    constructor
    · intro h
      unfold comQueSend.dbr_type_ok at h
      rw [hlen] at h
      split at h
      · cases h
      · split at h
        · cases h
        · rename_i h1 h2
          refine ⟨by omega, ?_⟩
          rcases ho : dbrCopyVector.getD type none with - | k
          · rw [ho] at h2
            simp at h2
          · rfl
    · rintro ⟨h1, h2⟩
      unfold comQueSend.dbr_type_ok
      rw [hlen, if_neg (by omega)]
      rcases ho : dbrCopyVector.getD type none with - | k
      · rw [ho] at h2
        simp at h2
      · simp
  refine ⟨key, ?_⟩
  intro h
  obtain ⟨h1, h2⟩ := key.mp h
  refine ⟨by omega, ?_⟩
  rcases ho : dbrCopyVector.getD type none with - | k
  · rw [ho] at h2
    simp at h2
  · refine ⟨k, rfl, ?_⟩
    intro cap q p n
    unfold comQueSend.push_dbr_type
    rw [ho]

/-- Witness for C6 at the float code 2: the guard accepts it and the
dispatch resolves to the float copy routine. -/
theorem C6_dbr_type_ok_guards_dispatch_witness :
    comQueSend.dbr_type_ok 2 = true ∧
    (2 < dbrCopyVector.length ∧
      ∃ k : DbrKind, dbrCopyVector.getD 2 none = some k ∧
        ∀ (cap : Nat) (q : comQueSend) (p : List Nat) (n : Nat),
          q.push_dbr_type cap 2 p n = comQueSend.copyDbrKind cap k q p n) :=
  ⟨by decide, (C6_dbr_type_ok_guards_dispatch 2).2 (by decide)⟩

/-- C7: a scalar push never splits the scalar across two buffers: either the
whole encoding is appended to the tail buffer, or it lands alone in one
freshly allocated buffer; and the assertion that a fresh buffer accepts a
single scalar always holds for the 2 and 4 byte scalars. -/
theorem C7_scalar_never_split (cap : Nat) (hcap : 4 ≤ cap) (q : comQueSend)
    (v : Nat) :
    comBuf.pushBytes cap ⟨[]⟩ (beBytes 2 v) = some ⟨beBytes 2 v⟩ ∧
    comBuf.pushBytes cap ⟨[]⟩ (beBytes 4 v) = some ⟨beBytes 4 v⟩ ∧
    scalarOneBuf q (q.pushUInt16 cap v) (beBytes 2 v) ∧
    scalarOneBuf q (q.pushUInt32 cap v) (beBytes 4 v) ∧
    scalarOneBuf q (q.pushFloat32 cap v) (beBytes 4 v) := by
  have h2 : (beBytes 2 v).length ≤ cap := by rw [beBytes_length]; omega
  have h4 : (beBytes 4 v).length ≤ cap := by rw [beBytes_length]; omega
  refine ⟨?_, ?_, ?_, ?_, ?_⟩
  · unfold comBuf.pushBytes
    rw [if_pos (by simpa using h2)]
    simp
  · unfold comBuf.pushBytes
    rw [if_pos (by simpa using h4)]
    simp
  · exact pushScalar_oneBuf cap q _ h2
  · exact pushScalar_oneBuf cap q _ h4
  · exact pushScalar_oneBuf cap q _ h4

/-- Witness for C7 at capacity 16384 on the empty queue: a pushed 16 bit
scalar lands whole in one fresh buffer. -/
theorem C7_scalar_never_split_witness :
    (4 ≤ 16384) ∧
    scalarOneBuf comQueSend.mk0
      (comQueSend.mk0.pushUInt16 16384 0x1234) (beBytes 2 0x1234) :=
  ⟨by decide, (C7_scalar_never_split 16384 (by decide) comQueSend.mk0 0x1234).2.2.1⟩

/-- C1: along every sequence of public queue operations the pending byte
counter returned by `occupiedBytes` equals the sum of the written offsets of
the buffers in the chain, and each typed push grows the counter by exactly
the number of bytes it wrote (2 for a 16 bit scalar, 4 for a 32 bit scalar
or float, `length` for a string). -/
theorem C1_pending_accounting (cap : Nat) (hcap : 4 ≤ cap) :
    (∀ ops : List Op,
      (runOps cap ops).occupiedBytes = chainBytes (runOps cap ops).bufs) ∧
    (∀ (q : comQueSend) (v : Nat),
      (q.pushUInt16 cap v).occupiedBytes = q.occupiedBytes + 2 ∧
      (q.pushUInt32 cap v).occupiedBytes = q.occupiedBytes + 4 ∧
      (q.pushFloat32 cap v).occupiedBytes = q.occupiedBytes + 4) ∧
    (∀ (q : comQueSend) (s : List Nat),
      (q.pushString cap s).occupiedBytes = q.occupiedBytes + s.length) := by
  refine ⟨?_, ?_, ?_⟩
  · intro ops
    exact (runOps_wf cap ops).1
  · intro q v
    exact ⟨pushUInt16_pending cap q v (by omega),
      pushUInt32_pending cap q v (by omega),
      pushFloat32_pending cap q v (by omega)⟩
  · intro q s
    exact pushString_pending cap q s (by omega)

/-- Witness for C1 at capacity 16384: a begin/push/commit run keeps the
counter equal to the chain bytes, and one 16 bit push adds exactly two
bytes. -/
theorem C1_pending_accounting_witness :
    (4 ≤ 16384) ∧
    ((runOps 16384 [Op.beginMsg, Op.pushUInt32 7, Op.commitMsg]).occupiedBytes =
      chainBytes (runOps 16384 [Op.beginMsg, Op.pushUInt32 7, Op.commitMsg]).bufs) ∧
    ((comQueSend.mk0.pushUInt16 16384 5).occupiedBytes =
      comQueSend.mk0.occupiedBytes + 2) :=
  ⟨by decide, (C1_pending_accounting 16384 (by decide)).1 _,
   ((C1_pending_accounting 16384 (by decide)).2.1 comQueSend.mk0 5).1⟩

/-- C3: `insertRequestWithPayLoad` rejects an invalid or unmapped data type
with a bad-type error before writing anything, and rejects a payload whose
encoded size overflows the compact header's 16 bit field, with extended
headers disallowed, with an out-of-bounds error; in both cases the queue
state (hence `occupiedBytes`) is unchanged. -/
theorem C3_insert_error_paths (cap : Nat) (q : comQueSend)
    (request dataType nElem cid rd : Nat) (p : List Nat) (v49 : Bool) :
    (comQueSend.dbr_type_ok dataType = false →
      q.insertRequestWithPayLoad cap request dataType nElem cid rd p v49 =
        .error .badType ∧
      q.insertRequestWithPayLoadRun cap request dataType nElem cid rd p v49 = q) ∧
    (comQueSend.dbr_type_ok dataType = true →
      0xffff < dbrSizeOf dataType * nElem → v49 = false →
      q.insertRequestWithPayLoad cap request dataType nElem cid rd p v49 =
        .error .outOfBounds ∧
      q.insertRequestWithPayLoadRun cap request dataType nElem cid rd p v49 = q) := by
  constructor
  · intro h
    have hres : q.insertRequestWithPayLoad cap request dataType nElem cid rd
        p v49 = .error .badType := by
      unfold comQueSend.insertRequestWithPayLoad
      rw [if_pos h]
    refine ⟨hres, ?_⟩
    unfold comQueSend.insertRequestWithPayLoadRun
    rw [hres]
  · intro hok hsz hv
    have hps : dbrSizeOf dataType * nElem ≤
        8 * ((dbrSizeOf dataType * nElem + 7) / 8) := by
      omega
    have hres : q.insertRequestWithPayLoad cap request dataType nElem cid rd
        p v49 = .error .outOfBounds := by
      unfold comQueSend.insertRequestWithPayLoad
      rw [if_neg (by rw [hok]; simp)]
      dsimp only
      unfold comQueSend.insertRequestHeader
      rw [if_neg (by rintro ⟨hx, -⟩; omega), if_neg (by rw [hv]; simp)]
    refine ⟨hres, ?_⟩
    unfold comQueSend.insertRequestWithPayLoadRun
    rw [hres]

/-- Witness for C3: type code 50 is outside the table and rejected as a bad
type; the char code 4 with 100000 elements overflows the 16 bit payload size
and is rejected as out of bounds when extended headers are disallowed; both
leave the fresh queue untouched. -/
theorem C3_insert_error_paths_witness :
    comQueSend.dbr_type_ok 50 = false ∧
    (comQueSend.mk0.insertRequestWithPayLoad 16384 1 50 2 7 8 [] true =
      .error .badType ∧
     comQueSend.mk0.insertRequestWithPayLoadRun 16384 1 50 2 7 8 [] true =
      comQueSend.mk0) ∧
    comQueSend.dbr_type_ok 4 = true ∧ 0xffff < dbrSizeOf 4 * 100000 ∧
    (comQueSend.mk0.insertRequestWithPayLoad 16384 1 4 100000 7 8 [] false =
      .error .outOfBounds ∧
     comQueSend.mk0.insertRequestWithPayLoadRun 16384 1 4 100000 7 8 [] false =
      comQueSend.mk0) :=
  ⟨by decide,
   (C3_insert_error_paths 16384 comQueSend.mk0 1 50 2 7 8 [] true).1 (by decide),
   by decide, by decide,
   (C3_insert_error_paths 16384 comQueSend.mk0 1 4 100000 7 8 [] false).2
     (by decide) (by decide) rfl⟩

/-- C4: `beginMsg` first discards the uncommitted bytes of any still open
message (its chain and pending counter coincide with those after
`clearUncommitted`), then marks the current chain tail as the new uncommitted
boundary; and on any reachable state calling it twice with no pushes in
between equals calling it once. -/
theorem C4_beginMsg_discard_mark_idem (cap : Nat) (ops : List Op) :
    ((runOps cap ops).beginMsg.bufs =
      (runOps cap ops).clearUncommitted.bufs ∧
     (runOps cap ops).beginMsg.occupiedBytes =
      (runOps cap ops).clearUncommitted.occupiedBytes) ∧
    ((runOps cap ops).beginMsg.pFirstUncommited =
      match (runOps cap ops).clearUncommitted.bufs.getLast? with
      | none => none
      | some b =>
          some ((runOps cap ops).clearUncommitted.bufs.length - 1,
            b.data.length)) ∧
    (runOps cap ops).beginMsg.beginMsg = (runOps cap ops).beginMsg := by
  refine ⟨⟨?_, ?_⟩, ?_, ?_⟩
  · rw [beginMsg_eq]
  · rw [beginMsg_eq]
    rfl
  · rw [beginMsg_eq]
  · exact beginMsg_idem _ (runOps_wf cap ops)

/-- C5: `popNextComBufToSend` first discards any uncommitted bytes, then
detaches and returns the head buffer while decrementing the pending count by
that buffer's written size, returns the null indicator on an empty chain, and
repeated calls drain the (committed) chain in FIFO order. -/
theorem C5_pop_discard_fifo (q : comQueSend) (h : q.wf) :
    (q.clearUncommitted.bufs = [] →
      q.popNextComBufToSend = (none, q.clearUncommitted)) ∧
    (∀ (b : comBuf) (rest : List comBuf),
      q.clearUncommitted.bufs = b :: rest →
      q.popNextComBufToSend =
        (some b, ⟨rest, none,
          q.clearUncommitted.occupiedBytes - b.data.length⟩) ∧
      q.popNextComBufToSend.2.occupiedBytes + b.data.length =
        q.clearUncommitted.occupiedBytes) ∧
    drainF q.clearUncommitted.bufs.length q = q.clearUncommitted.bufs := by
  have hcur := clearUncommitted_cursor q
  have hwfc := clearUncommitted_wf q h
  refine ⟨?_, ?_, ?_⟩
  · intro hb
    unfold comQueSend.popNextComBufToSend
    dsimp only
    rw [hb]
  · intro b rest hb
    have hpop : q.popNextComBufToSend =
        (some b, ⟨rest, q.clearUncommitted.pFirstUncommited,
          q.clearUncommitted.nBytesPending - b.data.length⟩) := by
      unfold comQueSend.popNextComBufToSend
      dsimp only
      rw [hb]
    constructor
    · rw [hpop, hcur]
      rfl
    · rw [hpop]
      show q.clearUncommitted.nBytesPending - b.data.length + b.data.length =
        q.clearUncommitted.nBytesPending
      have hp := hwfc.1
      rw [hp, hb, chainBytes_cons]
      omega
  · exact drainF_eq _ q h (Nat.le_refl _)

/-- Witness for C5 on a one-buffer fully committed queue: the drain returns
exactly that chain. -/
theorem C5_pop_discard_fifo_witness :
    (⟨[⟨[1, 2]⟩], none, 2⟩ : comQueSend).wf ∧
    drainF (⟨[⟨[1, 2]⟩], none, 2⟩ : comQueSend).clearUncommitted.bufs.length
        ⟨[⟨[1, 2]⟩], none, 2⟩ =
      (⟨[⟨[1, 2]⟩], none, 2⟩ : comQueSend).clearUncommitted.bufs :=
  ⟨by decide, (C5_pop_discard_fifo ⟨[⟨[1, 2]⟩], none, 2⟩ (by decide)).2.2⟩

theorem flatten_map_flatten (L : List (List (List Nat))) :
    (L.map List.flatten).flatten = L.flatten.flatten := by
  induction L with
  | nil => rfl
  | cons g gs ih => simp [ih]

/-- C2 counterexample: pushing five 4 byte elements into an empty queue with
capacity 10 creates 3 buffers (whole elements are never split, so a buffer
holds at most two of them), while the claimed byte-level formula
`ceil(nElem_bytes / capacity_bytes)` yields 2. -/
theorem C2_counterexample :
    (comQueSend.push 10 4 comQueSend.mk0
      (List.replicate 5 [0, 0, 0, 0])).bufs.length = 3 ∧
    (5 * 4 + 10 - 1) / 10 = 2 ∧
    ¬ (comQueSend.push 10 4 comQueSend.mk0
      (List.replicate 5 [0, 0, 0, 0])).bufs.length = (5 * 4 + 10 - 1) / 10 := by
  refine ⟨by decide, by decide, by decide⟩

/-- C2 (amended): for a push of `nElem` whole `w` byte elements into a queue
whose chain starts empty, the number of buffers created is exactly
`ceil(nElem / (capacity_bytes / w))` (the byte-level formula of the original
claim holds only when `w` divides the capacity); elements are never reordered
or split below element granularity, the concatenation of all buffers is the
original byte stream, and an already partially filled tail buffer with room
for at least one element is topped up before any new buffer is created. -/
theorem C2_chunking_amended (cap w : Nat) (hw : 0 < w) (hwc : w ≤ cap)
    (elems : List (List Nat)) (he : ∀ e ∈ elems, e.length = w) :
    ((comQueSend.push cap w comQueSend.mk0 elems).bufs.length =
      (elems.length + cap / w - 1) / (cap / w)) ∧
    ((comQueSend.push cap w comQueSend.mk0 elems).bufs.map comBuf.data =
      (groupsF (cap / w) elems.length elems).map List.flatten) ∧
    (((comQueSend.push cap w comQueSend.mk0 elems).bufs.map comBuf.data).flatten =
      elems.flatten) ∧
    (∀ (q0 : comQueSend) (b : comBuf), q0.bufs.getLast? = some b →
      w + b.data.length ≤ cap → elems ≠ [] →
      ∃ tl : List comBuf,
        (q0.push cap w elems).bufs =
          q0.bufs.dropLast ++
            ((⟨b.data ++ (elems.take
              (min elems.length ((cap - b.data.length) / w))).flatten⟩ :
                comBuf) :: tl) ∧
        elems.take (min elems.length ((cap - b.data.length) / w)) ≠ []) := by
  have hdiv : 1 ≤ cap / w := (Nat.one_le_div_iff hw).mpr hwc
  have hb := push_bufs_empty cap w hdiv elems comQueSend.mk0 rfl
  have hmap : (comQueSend.push cap w comQueSend.mk0 elems).bufs.map
      comBuf.data = (groupsF (cap / w) elems.length elems).map List.flatten := by
    rw [hb, List.map_map]
    rfl
  refine ⟨?_, hmap, ?_, ?_⟩
  · rw [hb, List.length_map]
    exact groupsF_length (cap / w) hdiv elems.length elems (Nat.le_refl _)
  · rw [hmap, flatten_map_flatten,
      groupsF_flatten (cap / w) hdiv elems.length elems (Nat.le_refl _)]
  · intro q0 b hlast hroom hne
    refine ⟨(groupsF (cap / w)
        (elems.length - min elems.length ((cap - b.data.length) / w))
        (elems.drop (min elems.length ((cap - b.data.length) / w)))).map
          (fun g => (⟨g.flatten⟩ : comBuf)), ?_, ?_⟩
    · exact push_bufs_tail cap w hdiv elems q0 b hlast
    · rcases helems : elems with - | ⟨e, rest⟩
      · exact absurd helems hne
      · have hacc1 : 1 ≤ min (e :: rest).length ((cap - b.data.length) / w) := by
          refine Nat.le_min.mpr ⟨by simp, ?_⟩
          exact (Nat.one_le_div_iff hw).mpr (by omega)
        obtain ⟨k, hk⟩ :
            ∃ k, min (e :: rest).length ((cap - b.data.length) / w) = k + 1 :=
          ⟨min (e :: rest).length ((cap - b.data.length) / w) - 1, by omega⟩
        rw [hk, List.take_succ_cons]
        simp

/-- Witness for C2 (amended) at capacity 8 with three 4 byte elements: two
buffers are created, matching `ceil(3 / 2)`. -/
theorem C2_chunking_amended_witness :
    ((0 : Nat) < 4 ∧ (4 : Nat) ≤ 8 ∧
      ∀ e ∈ [[1, 2, 3, 4], [5, 6, 7, 8], [9, 9, 9, 9]], List.length e = 4) ∧
    ((comQueSend.push 8 4 comQueSend.mk0
        [[1, 2, 3, 4], [5, 6, 7, 8], [9, 9, 9, 9]]).bufs.length =
      (3 + 8 / 4 - 1) / (8 / 4)) :=
  ⟨⟨by decide, by decide, by decide⟩,
   (C2_chunking_amended 8 4 (by decide) (by decide) _ (by decide)).1⟩

/-- C8 counterexample: with the wildcard match address and a failing
`getifaddrs`, `osiSockDiscoverBroadcastAddresses` leaves the result list
empty (`osdNetIfConf.c`, lines 89-94 return without adding a node), so the
discovery result is not the IPv4 loopback address the claim requires. -/
theorem C8_counterexample :
    osiSockDiscoverBroadcastAddresses ⟨AF_UNSPEC, 0⟩ none = [] ∧
    ([] : List osiSockAddr) ≠ [loopbackAddr] := by
  refine ⟨by decide, by decide⟩

/-- C8 (amended): `osiLocalAddr`'s one-shot scan falls back to the IPv4
loopback address on every enumeration failure (allocation failure, a failed
`SIOCGIFCONF` ioctl, or only loopback interfaces found), while
`osiSockDiscoverBroadcastAddresses` degrades on a failed `getifaddrs` by
logging and returning the address list unchanged, with no loopback fallback
(unless the match address itself is loopback, which short-circuits before the
scan). -/
theorem C8_discovery_fallback :
    osiLocalAddrOnce .allocFail = loopbackAddr ∧
    osiLocalAddrOnce .ioctlFail = loopbackAddr ∧
    (∀ ifs : List ifaceInfo, ifs.find? usableLocalIf = none →
      osiLocalAddrOnce (.found ifs) = loopbackAddr) ∧
    (∀ m : osiSockAddr, ¬ (m.family = AF_INET ∧ m.addr = INADDR_LOOPBACK) →
      osiSockDiscoverBroadcastAddresses m none = []) := by
  refine ⟨rfl, rfl, ?_, ?_⟩
  · intro ifs hf
    unfold osiLocalAddrOnce
    show (match ifs.find? usableLocalIf with
      | some i => (⟨AF_INET, i.addr⟩ : osiSockAddr)
      | none => loopbackAddr) = loopbackAddr
    rw [hf]
  · intro m hm
    unfold osiSockDiscoverBroadcastAddresses
    rw [if_neg hm]

/-- Witness for C8 (amended): an interface list with no usable entry falls
back to loopback, and a failed scan with a wildcard match address yields the
empty list. -/
theorem C8_discovery_fallback_witness :
    (([] : List ifaceInfo).find? usableLocalIf = none ∧
      osiLocalAddrOnce (.found []) = loopbackAddr) ∧
    (¬ ((⟨AF_UNSPEC, 0⟩ : osiSockAddr).family = AF_INET ∧
        (⟨AF_UNSPEC, 0⟩ : osiSockAddr).addr = INADDR_LOOPBACK) ∧
      osiSockDiscoverBroadcastAddresses ⟨AF_UNSPEC, 0⟩ none = []) :=
  ⟨⟨rfl, C8_discovery_fallback.2.2.1 [] rfl⟩,
   ⟨by decide, C8_discovery_fallback.2.2.2 ⟨AF_UNSPEC, 0⟩ (by decide)⟩⟩
